import Mathlib

/-!
Verification development for the JSON-like recursive-descent parser of this
repository.  The hand-rolled combinator path (`src/json.rs`, built on winnow)
is embedded in namespace `Json`; the grammar-driven path (`src/json2.rs`,
built on pest) is embedded in namespace `Json2`.

Modelling conventions:
* the winnow cursor (`&mut Input`) becomes explicit state passing: a parser is
  a function `Input → Option (α × Input)` returning the value and the
  remaining input on success and `none` on failure.  winnow's combinators
  (`alt`, `opt`, `separated`, `parse_to`, literal tags) all restore the cursor
  to the pre-attempt checkpoint when the attempt fails, so a failing parser is
  observationally position-free and `none` carries no position;
* `i64` becomes a natural number guarded by `≤ 2^63 - 1` exactly where the
  code's `parse_to::<i64>()` can fail (the digits are unsigned there, the sign
  is applied afterwards, as in the source);
* `f64` values produced by parsing a decimal string are modelled as the exact
  rational value of that string (`ℚ`); every concrete number compared in a
  theorem below (30, 30.0, 1.5, ...) is intended up to this exact-decimal
  reading, and no floating-point rounding is modelled;
* recursion through the grammar (value ↦ array ↦ value …) is made structural
  with an explicit fuel counter; fuel `0` yields `none`, and the container
  parsers take the parser for elements as an explicit argument (`pv`), which
  `parse_value` instantiates with itself at smaller fuel.
-/

namespace Json

/-- The parser input: the document as a list of characters, read at a cursor.
The remaining input after the cursor is the whole state. -/
abbrev Input := List Char

/-- Result of a parser: `some (value, remaining input)` or failure. -/
abbrev ParseResult (α : Type) := Option (α × Input)

/-- The characters recognized by winnow's `multispace0`: space, tab, newline,
carriage return. -/
def isWS (c : Char) : Bool :=
  c == ' ' || c == '\t' || c == '\n' || c == '\r'

/-- `multispace0`: consume the maximal whitespace prefix (it cannot fail). -/
def dropWS (inp : Input) : Input := inp.dropWhile isWS

/-- All characters of a list are whitespace. -/
def allWS (l : Input) : Bool := l.all isWS

/-- Literal tag parser (winnow string literals such as `"null"`): succeeds iff
the input starts with the literal, consuming exactly it. -/
def tag : List Char → Input → ParseResult Unit
  | [], inp => some ((), inp)
  | _ :: _, [] => none
  | c :: cs, x :: xs => if x = c then tag cs xs else none

/-- Single-character literal parser (winnow `char` literals such as `'['`). -/
def charP (c : Char) : Input → ParseResult Unit
  | [] => none
  | x :: xs => if x = c then some ((), xs) else none

/-- `opt("-")`: returns whether a leading `'-'` was consumed. -/
def optMinus : Input → Bool × Input
  | [] => (false, [])
  | c :: r => if c = '-' then (true, r) else (false, c :: r)

/-- Longest prefix of ASCII decimal digits, with the rest of the input. -/
def takeDigits : Input → List Char × Input
  | [] => ([], [])
  | c :: r =>
    if c.isDigit then
      let p := takeDigits r
      (c :: p.1, p.2)
    else ([], c :: r)

/-- winnow `digit1`: one or more ASCII decimal digits. -/
def digit1 (inp : Input) : ParseResult (List Char) :=
  match takeDigits inp with
  | ([], _) => none
  | (ds, rest) => some (ds, rest)

/-- Numeric value of a digit string (the usual left fold). -/
def digitsVal (ds : List Char) : ℕ :=
  ds.foldl (fun a c => 10 * a + (c.toNat - 48)) 0

/-- `i64::MAX`. -/
def maxI64 : ℕ := 9223372036854775807

/-- Model of `.parse_to::<i64>()` applied to a digit-only slice: the numeric
value if it fits in an `i64`, failure (not a panic) on overflow. -/
def parse_to_i64 (ds : List Char) : Option ℕ :=
  if digitsVal ds ≤ maxI64 then some (digitsVal ds) else none

/-- Decimal digit character for `n < 10` (`Display` of a digit). -/
def digitChar (n : ℕ) : Char := Char.ofNat (48 + n)

/-- Base-10 rendering of a natural number, most significant digit first,
fuel-indexed so that it is structurally recursive.  Models Rust's
`Display`/`format!` of a nonnegative integer. -/
def natReprAux : ℕ → ℕ → List Char
  | 0, _ => []
  | fuel + 1, n =>
    if n < 10 then [digitChar n]
    else natReprAux fuel (n / 10) ++ [digitChar (n % 10)]

/-- Base-10 rendering of a natural number (`format!("{}", n)`). -/
def natRepr (n : ℕ) : List Char := natReprAux (n + 1) n

/-- Model of Rust's decimal string parsing (`str::parse::<f64>()`) restricted
to the forms this repository produces: optional `'-'`, one-or-more digits,
optionally `'.'` and one-or-more digits, end of string.  The result is the
exact rational value of the literal (f64 rounding is not modelled; every
concrete value compared in the theorems below is exactly representable in the
reading used on both sides of the comparison). -/
def parseDecimalQ (s : List Char) : Option ℚ :=
  let p := optMinus s
  match takeDigits p.2 with
  | ([], _) => none
  | (ip, r1) =>
    match r1 with
    | [] =>
      some (mkRat (if p.1 then -(digitsVal ip : ℤ) else (digitsVal ip : ℤ)) 1)
    | '.' :: r2 =>
      match takeDigits r2 with
      | ([], _) => none
      | (fp, r3) =>
        if r3 = [] then
          let n : ℤ := digitsVal ip * 10 ^ fp.length + digitsVal fp
          some (mkRat (if p.1 then -n else n) (10 ^ fp.length))
        else none
    | _ => none

/-- The string built at the `unwrap` site of `parse_number`
(`format!("{}.{}", num, frac)`) parsed back as an `f64`
(`.parse::<f64>().unwrap()`).  A `none` here models the panic of the
`unwrap`; it is proven unreachable below. -/
def mkFloat (num frac : ℕ) : Option ℚ :=
  parseDecimalQ (natRepr num ++ '.' :: natRepr frac)

/-- The `Num` tagged union of `src/json.rs`: `Int(i64)` or `Float(f64)`
(the float modelled as the exact rational of the parsed decimal string). -/
inductive Num where
  | int : ℤ → Num
  | float : ℚ → Num
deriving DecidableEq

/-- The `JsonValue` tagged union of `src/json.rs`.  `Object`'s `HashMap` is
modelled by its observable content: an association list with pairwise distinct
keys, built by last-write-wins insertion. -/
inductive JsonValue where
  | null : JsonValue
  | bool : Bool → JsonValue
  | number : Num → JsonValue
  | string : List Char → JsonValue
  | array : List JsonValue → JsonValue
  | object : List (List Char × JsonValue) → JsonValue

instance : Nonempty JsonValue := ⟨JsonValue.null⟩

def nullLit : List Char := ['n', 'u', 'l', 'l']
def trueLit : List Char := ['t', 'r', 'u', 'e']
def falseLit : List Char := ['f', 'a', 'l', 's', 'e']

/-- `parse_null`: the literal keyword `null`, producing `()`. -/
def parse_null (inp : Input) : ParseResult Unit := tag nullLit inp

/-- `parse_bool`: `alt(("true", "false")).parse_to::<bool>()`. -/
def parse_bool (inp : Input) : ParseResult Bool :=
  match tag trueLit inp with
  | some (_, r) => some (true, r)
  | none =>
    match tag falseLit inp with
    | some (_, r) => some (false, r)
    | none => none

/-- `parse_number` of `src/json.rs`: optional `'-'`; one-or-more digits parsed
to `i64`; then, if a `'.'` follows, one-or-more digits parsed to `i64`, the
two parsed integers reformatted via `format!("{}.{}", num, frac)` and parsed
as an `f64` (the `unwrap` there modelled by the `mkFloat … = none` branch);
the sign applied to the final value. -/
def parse_number (inp : Input) : ParseResult Num :=
  let s := optMinus inp
  match digit1 s.2 with
  | none => none
  | some (ds, i2) =>
    match parse_to_i64 ds with
    | none => none
    | some num =>
      match i2 with
      | '.' :: i3 =>
        match digit1 i3 with
        | none => none
        | some (fs, i4) =>
          match parse_to_i64 fs with
          | none => none
          | some frac =>
            match mkFloat num frac with
            | some q => some (.float (if s.1 then -q else q), i4)
            | none => none
      | _ => some (.int (if s.1 then -(num : ℤ) else (num : ℤ)), i2)

/-- winnow `take_until(0.., c)`: the characters strictly before the first
occurrence of `c` (which is left in the input); fails if `c` never occurs. -/
def take_until_ch (c : Char) : Input → ParseResult (List Char)
  | [] => none
  | x :: xs =>
    if x = c then some ([], x :: xs)
    else
      match take_until_ch c xs with
      | none => none
      | some (s, r) => some (x :: s, r)

/-- `parse_string`: `delimited('"', take_until(0.., '"'), '"')`; the raw
characters between the quotes, with no escape processing. -/
def parse_string (inp : Input) : ParseResult (List Char) :=
  match charP '"' inp with
  | none => none
  | some (_, r1) =>
    match take_until_ch '"' r1 with
    | none => none
    | some (s, r2) =>
      match charP '"' r2 with
      | none => none
      | some (_, r3) => some (s, r3)

/-- `sep_with_space(parser)`: skip whitespace, run the parser, skip
whitespace, produce `()`. -/
def sep_with_space {α : Type} (p : Input → ParseResult α) (inp : Input) :
    ParseResult Unit :=
  match p (dropWS inp) with
  | none => none
  | some (_, r) => some ((), dropWS r)

/-- The iteration of winnow's `separated(…)` after the first element: try the
separator; if it fails, stop; otherwise parse another element, resetting to
before the separator (and stopping) if the element fails.  `pv` is the element
parser; the fuel bounds the number of iterations (each iteration consumes at
least the `','`). -/
def sepTailV (pv : Input → ParseResult JsonValue) :
    ℕ → Input → ParseResult (List JsonValue)
  | 0, _ => none
  | f + 1, inp =>
    match sep_with_space (charP ',') inp with
    | none => some ([], inp)
    | some (_, i1) =>
      match pv i1 with
      | none => some ([], inp)
      | some (v, i2) =>
        match sepTailV pv f i2 with
        | none => none
        | some (vs, i3) => some (v :: vs, i3)

/-- winnow `separated(0.., parse_value, sep_comma)`: zero or more elements;
if the first element fails the result is the empty list at the original
position. -/
def sepValues (pv : Input → ParseResult JsonValue) (f : ℕ) (inp : Input) :
    ParseResult (List JsonValue) :=
  match pv inp with
  | none => some ([], inp)
  | some (v, i1) =>
    match sepTailV pv f i1 with
    | none => none
    | some (vs, i2) => some (v :: vs, i2)

/-- `parse_array`: `delimited(sep_with_space('['), separated(0.., parse_value,
sep_comma), sep_with_space(']'))`.  The element parser `pv` is passed
explicitly; `parse_value` ties the recursive knot with smaller fuel. -/
def parse_array (pv : Input → ParseResult JsonValue) (f : ℕ) (inp : Input) :
    ParseResult (List JsonValue) :=
  match sep_with_space (charP '[') inp with
  | none => none
  | some (_, i1) =>
    match sepValues pv f i1 with
    | none => none
    | some (vs, i2) =>
      match sep_with_space (charP ']') i2 with
      | none => none
      | some (_, i3) => some (vs, i3)

/-- `separated_pair(parse_string, sep_colon, parse_value)`: one key/value
pair. -/
def parse_kv_pair (pv : Input → ParseResult JsonValue) (inp : Input) :
    ParseResult (List Char × JsonValue) :=
  match parse_string inp with
  | none => none
  | some (k, i1) =>
    match sep_with_space (charP ':') i1 with
    | none => none
    | some (_, i2) =>
      match pv i2 with
      | none => none
      | some (v, i3) => some ((k, v), i3)

/-- Iteration of `separated(1.., parse_kv_pair, sep_comma)` after the first
pair (same reset discipline as `sepTailV`). -/
def sepTailKV (pv : Input → ParseResult JsonValue) :
    ℕ → Input → ParseResult (List (List Char × JsonValue))
  | 0, _ => none
  | f + 1, inp =>
    match sep_with_space (charP ',') inp with
    | none => some ([], inp)
    | some (_, i1) =>
      match parse_kv_pair pv i1 with
      | none => some ([], inp)
      | some (kv, i2) =>
        match sepTailKV pv f i2 with
        | none => none
        | some (kvs, i3) => some (kv :: kvs, i3)

/-- winnow `separated(1.., parse_kv_pair, sep_comma)`: at least one pair. -/
def sepPairs (pv : Input → ParseResult JsonValue) (f : ℕ) (inp : Input) :
    ParseResult (List (List Char × JsonValue)) :=
  match parse_kv_pair pv inp with
  | none => none
  | some (kv, i1) =>
    match sepTailKV pv f i1 with
    | none => none
    | some (kvs, i2) => some (kv :: kvs, i2)

/-- Insertion into the `HashMap` model: replace the value of an existing key
in place, otherwise append the new binding (`HashMap::insert`'s observable
behavior: last write wins, keys unique). -/
def insertKV : List (List Char × JsonValue) → List Char → JsonValue →
    List (List Char × JsonValue)
  | [], k, v => [(k, v)]
  | (k', v') :: rest, k, v =>
    if k' = k then (k, v) :: rest else (k', v') :: insertKV rest k v

/-- The `HashMap` accumulated by winnow's `separated` from the parsed pairs in
order (each pair inserted as it is parsed). -/
def buildMap (ps : List (List Char × JsonValue)) :
    List (List Char × JsonValue) :=
  ps.foldl (fun m kv => insertKV m kv.1 kv.2) []

/-- Lookup in the `HashMap` model. -/
def lookupKV : List (List Char × JsonValue) → List Char → Option JsonValue
  | [], _ => none
  | (k', v) :: rest, k => if k' = k then some v else lookupKV rest k

/-- `parse_object`: `delimited(sep_with_space('{'), separated(1..,
parse_kv_pair, sep_comma), sep_with_space('}'))`, the pairs accumulated into
the map. -/
def parse_object (pv : Input → ParseResult JsonValue) (f : ℕ) (inp : Input) :
    ParseResult (List (List Char × JsonValue)) :=
  match sep_with_space (charP '\x7b') inp with
  | none => none
  | some (_, i1) =>
    match sepPairs pv f i1 with
    | none => none
    | some (ps, i2) =>
      match sep_with_space (charP '\x7d') i2 with
      | none => none
      | some (_, i3) => some (buildMap ps, i3)

/-- The Value Dispatcher `parse_value`: `alt((null, bool, number, string,
array, object))` — each production attempted at the same position, first
success returned.  Fuel `0` fails; the source's unbounded recursion is
realized by any fuel larger than the nesting the input needs. -/
def parse_value (f : ℕ) : Input → ParseResult JsonValue :=
  match f with
  | 0 => fun _ => none
  | f + 1 => fun inp =>
    match parse_null inp with
    | some (_, r) => some (.null, r)
    | none =>
      match parse_bool inp with
      | some (b, r) => some (.bool b, r)
      | none =>
        match parse_number inp with
        | some (n, r) => some (.number n, r)
        | none =>
          match parse_string inp with
          | some (s, r) => some (.string s, r)
          | none =>
            match parse_array (parse_value f) f inp with
            | some (vs, r) => some (.array vs, r)
            | none =>
              match parse_object (parse_value f) f inp with
              | some (m, r) => some (.object m, r)
              | none => none

/-- `parse_json`: runs `parse_value` on the input and keeps the value,
turning the parse error into a plain failure.  It does not require the whole
input to be consumed. -/
def parse_json (f : ℕ) (inp : Input) : Option JsonValue :=
  (parse_value f inp).map fun r => r.1

/-! Specification-side vocabulary: renderings of well-formed containers with
arbitrary whitespace annotations, and the notion of an element text parsing
to a value. -/

/-- `true` iff the input is nonempty and does not start with whitespace. -/
def headNotWS : Input → Bool
  | [] => false
  | c :: _ => !isWS c

/-- `true` iff the input is empty or starts with a character that always ends
a value literal inside a container (whitespace, `','`, `']'`, `'}'`). -/
def stopHead : Input → Bool
  | [] => true
  | c :: _ => isWS c || c == ',' || c == ']' || c == '\x7d'

/-- The text `e` parses (under element parser `pv`) to exactly the value `v`,
stopping at any container-delimiter continuation. -/
def ParsesTo (pv : Input → ParseResult JsonValue) (e : Input) (v : JsonValue) :
    Prop :=
  ∀ rest : Input, stopHead rest = true → pv (e ++ rest) = some (v, rest)

/-- One array element after the first: whitespace before the comma,
whitespace after the comma, the element text, and the value it denotes. -/
structure ElemR where
  ws1 : Input
  ws2 : Input
  txt : Input
  val : JsonValue

/-- Rendering of the `, e2, e3, …` tail of an array. -/
def renderTailElems : List ElemR → Input
  | [] => []
  | x :: r => x.ws1 ++ ',' :: (x.ws2 ++ (x.txt ++ renderTailElems r))

/-- Rendering of a nonempty array with whitespace annotations. -/
def renderArr (wsA wsB e1 : Input) (l : List ElemR) (wsC wsD : Input) :
    Input :=
  wsA ++ '[' :: (wsB ++ (e1 ++ (renderTailElems l ++ (wsC ++ ']' :: wsD))))

/-- One key/value pair: the key characters (no `'"'`), whitespace before and
after the `':'`, the value text and the value it denotes. -/
structure PairR where
  key : Input
  wsK : Input
  wsV : Input
  txt : Input
  val : JsonValue

/-- A pair occurrence after the first: whitespace before the comma,
whitespace after the comma, and the pair. -/
structure TPair where
  ws1 : Input
  ws2 : Input
  pr : PairR

/-- Rendering of one `"key" : value` pair. -/
def renderPair (p : PairR) : Input :=
  '"' :: (p.key ++ '"' :: (p.wsK ++ ':' :: (p.wsV ++ p.txt)))

/-- Rendering of the `, pair2, pair3, …` tail of an object. -/
def renderTailPairs : List TPair → Input
  | [] => []
  | t :: r => t.ws1 ++ ',' :: (t.ws2 ++ (renderPair t.pr ++ renderTailPairs r))

/-- Rendering of a nonempty object with whitespace annotations. -/
def renderObject (wsA wsB : Input) (p : PairR) (l : List TPair)
    (wsC wsD : Input) : Input :=
  wsA ++ '\x7b' ::
    (wsB ++ (renderPair p ++ (renderTailPairs l ++ (wsC ++ '\x7d' :: wsD))))

/-- The well-formedness conditions on one rendered pair: the key contains no
quote, the whitespace annotations are whitespace, and the value text parses
to the stated value. -/
def GoodPair (pv : Input → ParseResult JsonValue) (p : PairR) : Prop :=
  '"' ∉ p.key ∧ allWS p.wsK = true ∧ allWS p.wsV = true ∧
    headNotWS p.txt = true ∧ ParsesTo pv p.txt p.val

/-- The key/value pairs of a rendered object, in textual order. -/
def kvListOf (p : PairR) (l : List TPair) : List (List Char × JsonValue) :=
  (p.key, p.val) :: l.map fun t => (t.pr.key, t.pr.val)

/-- The value of the last (rightmost) occurrence of a key in a pair list. -/
def lastVal (k : List Char) : List (List Char × JsonValue) → Option JsonValue
  | [] => none
  | (k', v) :: rest =>
    match lastVal k rest with
    | some w => some w
    | none => if k' = k then some v else none

/-- The keys of the `HashMap` model, in representation order. -/
def keysOf (m : List (List Char × JsonValue)) : List (List Char) :=
  m.map Prod.fst

end Json

/-- A document text as parser input. -/
def toInput (s : String) : Json.Input := s.toList

/-- `true` iff the input is empty or does not start with a digit. -/
def headNotDigit : Json.Input → Bool
  | [] => true
  | c :: _ => !c.isDigit

namespace Json2

/-- The `JsonValue` tagged union of `src/json2.rs`.  Unlike `Json.JsonValue`
its `Number` variant holds a single `f64` (modelled as the exact rational of
the parsed literal); there is no `Int`/`Float` distinction. -/
inductive JsonValue where
  | null : JsonValue
  | bool : Bool → JsonValue
  | number : ℚ → JsonValue
  | string : List Char → JsonValue
  | array : List JsonValue → JsonValue
  | object : List (List Char × JsonValue) → JsonValue

/-- Modelled from the spec: the pest grammar file `json.pest` referenced by
`#[grammar = "json.pest"]` is not under `src/`; per §4.4 the rule set encodes
the identical number grammar of §4.1: optional `-`, one-or-more digits,
optional `.` and one-or-more digits.  A pest rule node carries the matched
slice (`as_str`); this returns the matched slice and the rest. -/
def pestNumberSlice (inp : Json.Input) : Option (List Char × Json.Input) :=
  let p := Json.optMinus inp
  match Json.takeDigits p.2 with
  | ([], _) => none
  | (ip, r1) =>
    match r1 with
    | '.' :: r2 =>
      match Json.takeDigits r2 with
      | ([], _) => none
      | (fp, r3) =>
        some ((if p.1 then ['-'] else []) ++ ip ++ '.' :: fp, r3)
    | _ => some ((if p.1 then ['-'] else []) ++ ip, r1)

/-- The `Rule::number` arm of `parse_value` in `src/json2.rs`:
`JsonValue::Number(pair.as_str().parse()?)` — the matched slice parsed as an
`f64` (modelled exactly over ℚ). -/
def parse_value_number (inp : Json.Input) : Option JsonValue :=
  match pestNumberSlice inp with
  | none => none
  | some (s, _) =>
    match Json.parseDecimalQ s with
    | none => none
    | some q => some (.number q)

end Json2

namespace Json

theorem dropWS_cons_neg {c : Char} (h : isWS c = false) (l : Input) :
    dropWS (c :: l) = c :: l := by
  simp [dropWS, List.dropWhile_cons, h]

theorem dropWS_append {w : Input} (h : allWS w = true) (l : Input) :
    dropWS (w ++ l) = dropWS l := by
  induction w with
  | nil => rfl
  | cons c w ih =>
    simp only [allWS, List.all_cons, Bool.and_eq_true] at h
    simp only [List.cons_append, dropWS, List.dropWhile_cons, h.1, if_true]
    exact ih h.2

theorem dropWS_eq_nil {w : Input} (h : allWS w = true) : dropWS w = [] := by
  have := dropWS_append h []
  simpa using this

theorem tag_append (lit rest : Input) :
    tag lit (lit ++ rest) = some ((), rest) := by
  induction lit with
  | nil => rfl
  | cons c cs ih => simp [tag, ih]

theorem tag_cons_ne {x c : Char} (h : x ≠ c) (cs xs : Input) :
    tag (c :: cs) (x :: xs) = none := by
  simp [tag, h]

theorem charP_self (c : Char) (r : Input) : charP c (c :: r) = some ((), r) := by
  simp [charP]

theorem charP_ne {x c : Char} (h : x ≠ c) (r : Input) :
    charP c (x :: r) = none := by
  simp [charP, h]

theorem isWS_cases {c : Char} (h : isWS c = true) :
    c = ' ' ∨ c = '\t' ∨ c = '\n' ∨ c = '\r' := by
  have := h
  simp only [isWS, Bool.or_eq_true, beq_iff_eq] at this
  tauto

/-- A whitespace character starts none of the six productions. -/
theorem isWS_spec {c : Char} (h : isWS c = true) :
    c ≠ 'n' ∧ c ≠ 't' ∧ c ≠ 'f' ∧ c ≠ '-' ∧ c ≠ '"' ∧ c ≠ '[' ∧
      c ≠ '\x7b' ∧ c.isDigit = false := by
  rcases isWS_cases h with h | h | h | h <;> subst h <;> exact (by decide)

theorem takeDigits_cons_neg {c : Char} (h : c.isDigit = false) (l : Input) :
    takeDigits (c :: l) = ([], c :: l) := by
  simp [takeDigits, h]

theorem takeDigits_exact {ds : Input} (hd : ∀ c ∈ ds, c.isDigit = true)
    {rest : Input} (hr : headNotDigit rest = true) :
    takeDigits (ds ++ rest) = (ds, rest) := by
  induction ds with
  | nil =>
    cases rest with
    | nil => rfl
    | cons c t =>
      simp only [headNotDigit, Bool.not_eq_true'] at hr
      simpa using takeDigits_cons_neg hr t
  | cons c ds ih =>
    have hc : c.isDigit = true := hd c (by simp)
    have := ih (fun x hx => hd x (by simp [hx]))
    simp only [List.cons_append, takeDigits, hc, if_true, List.append_eq, this]

theorem take_until_found {c : Char} {s : Input} (h : c ∉ s) (r : Input) :
    take_until_ch c (s ++ c :: r) = some (s, c :: r) := by
  induction s with
  | nil => simp [take_until_ch]
  | cons x xs ih =>
    have hx : x ≠ c := fun e => h (by simp [e])
    have h' : c ∉ xs := fun e => h (by simp [e])
    simp [take_until_ch, hx, ih h']

theorem take_until_sound {c : Char} : ∀ {inp s r : Input},
    take_until_ch c inp = some (s, r) →
    inp = s ++ r ∧ c ∉ s ∧ ∃ r', r = c :: r' := by
  intro inp
  induction inp with
  | nil => intro s r h; simp [take_until_ch] at h
  | cons x xs ih =>
    intro s r h
    by_cases hx : x = c
    · subst hx
      simp [take_until_ch] at h
      obtain ⟨hs, hr⟩ := h
      subst hs; subst hr
      exact ⟨rfl, by simp, xs, rfl⟩
    · cases htu : take_until_ch c xs with
      | none => simp [take_until_ch, if_neg hx, htu] at h
      | some p =>
        obtain ⟨s', r'⟩ := p
        simp only [take_until_ch, if_neg hx, htu, Option.some.injEq,
          Prod.mk.injEq] at h
        obtain ⟨hs, hr⟩ := h
        obtain ⟨h1, h2, r'', h3⟩ := ih htu
        subst hs; subst hr; subst h1
        refine ⟨by simp, ?_, r'', h3⟩
        simp only [List.mem_cons, not_or]
        exact ⟨fun e => hx e.symm, h2⟩

/-- Unfolding of `parse_value` at positive fuel: the six productions in
source order, all attempted at the same position `inp`. -/
theorem parse_value_succ (f : ℕ) (inp : Input) :
    parse_value (f + 1) inp =
      match parse_null inp with
      | some (_, r) => some (.null, r)
      | none =>
        match parse_bool inp with
        | some (b, r) => some (.bool b, r)
        | none =>
          match parse_number inp with
          | some (n, r) => some (.number n, r)
          | none =>
            match parse_string inp with
            | some (s, r) => some (.string s, r)
            | none =>
              match parse_array (parse_value f) f inp with
              | some (vs, r) => some (.array vs, r)
              | none =>
                match parse_object (parse_value f) f inp with
                | some (m, r) => some (.object m, r)
                | none => none := rfl

theorem parse_null_cons_ne {c : Char} (h : c ≠ 'n') (l : Input) :
    parse_null (c :: l) = none := by
  simp [parse_null, nullLit, tag_cons_ne h]

theorem parse_bool_cons_ne {c : Char} (ht : c ≠ 't') (hf : c ≠ 'f')
    (l : Input) : parse_bool (c :: l) = none := by
  simp [parse_bool, trueLit, falseLit, tag_cons_ne ht, tag_cons_ne hf]

theorem parse_number_cons_nodigit {c : Char} (hm : c ≠ '-')
    (hd : c.isDigit = false) (l : Input) : parse_number (c :: l) = none := by
  simp [parse_number, optMinus, hm, digit1, takeDigits_cons_neg hd]

theorem parse_string_cons_ne {c : Char} (h : c ≠ '"') (l : Input) :
    parse_string (c :: l) = none := by
  simp [parse_string, charP_ne h]

theorem parse_array_cons_ne (pv : Input → ParseResult JsonValue) (f : ℕ)
    {c : Char} (hws : isWS c = false) (h : c ≠ '[') (l : Input) :
    parse_array pv f (c :: l) = none := by
  simp [parse_array, sep_with_space, dropWS_cons_neg hws, charP_ne h]

theorem parse_object_cons_ne (pv : Input → ParseResult JsonValue) (f : ℕ)
    {c : Char} (hws : isWS c = false) (h : c ≠ '\x7b') (l : Input) :
    parse_object pv f (c :: l) = none := by
  simp [parse_object, sep_with_space, dropWS_cons_neg hws, charP_ne h]

/-- `parse_value` fails on any input whose first character starts none of the
six productions. -/
theorem parse_value_cons_stop {c : Char} (h1 : isWS c = false)
    (h2 : c.isDigit = false) (h3 : c ≠ 'n') (h4 : c ≠ 't') (h5 : c ≠ 'f')
    (h6 : c ≠ '-') (h7 : c ≠ '"') (h8 : c ≠ '[') (h9 : c ≠ '\x7b') :
    ∀ (f : ℕ) (l : Input), parse_value f (c :: l) = none := by
  intro f l
  cases f with
  | zero => rfl
  | succ f =>
    rw [parse_value_succ]
    simp [parse_null_cons_ne h3, parse_bool_cons_ne h4 h5,
      parse_number_cons_nodigit h6 h2, parse_string_cons_ne h7,
      parse_array_cons_ne (parse_value f) f h1 h8,
      parse_object_cons_ne (parse_value f) f h1 h9]

/-- `parse_value` fails at a separator or closing-delimiter character. -/
theorem parse_value_stopChar {c : Char}
    (hc : c = ',' ∨ c = ']' ∨ c = '\x7d' ∨ c = ':') :
    ∀ (f : ℕ) (l : Input), parse_value f (c :: l) = none := by
  rcases hc with h | h | h | h <;> subst h <;>
    exact parse_value_cons_stop (by decide) (by decide) (by decide) (by decide)
      (by decide) (by decide) (by decide) (by decide) (by decide)

/-- Any input continuing with the keyword `null` parses to `Null`, consuming
exactly the keyword. -/
theorem parse_value_null_kw (f : ℕ) (rest : Input) :
    parse_value (f + 1) (nullLit ++ rest) = some (.null, rest) := by
  rw [parse_value_succ]
  simp [parse_null, tag_append]

/-- Any input continuing with the keyword `true` parses to `Bool(true)`,
consuming exactly the keyword. -/
theorem parse_value_true_kw (f : ℕ) (rest : Input) :
    parse_value (f + 1) (trueLit ++ rest) = some (.bool true, rest) := by
  rw [parse_value_succ]
  have hnull : parse_null (trueLit ++ rest) = none := by
    simp [parse_null, nullLit, trueLit, tag_cons_ne (by decide : 't' ≠ 'n')]
  have hbool : parse_bool (trueLit ++ rest) = some (true, rest) := by
    simp [parse_bool, tag_append]
  simp [hnull, hbool]

theorem sws_ok {w : Input} (hw : allWS w = true) {c : Char}
    (hc : isWS c = false) (rest : Input) :
    sep_with_space (charP c) (w ++ c :: rest) = some ((), dropWS rest) := by
  simp [sep_with_space, dropWS_append hw, dropWS_cons_neg hc, charP_self]

theorem sws_fail {w : Input} (hw : allWS w = true) {x c : Char}
    (hxw : isWS x = false) (hxc : x ≠ c) (rest : Input) :
    sep_with_space (charP c) (w ++ x :: rest) = none := by
  simp [sep_with_space, dropWS_append hw, dropWS_cons_neg hxw, charP_ne hxc]

theorem sws_prepend {α : Type} (p : Input → ParseResult α) {w : Input}
    (hw : allWS w = true) (inp : Input) :
    sep_with_space p (w ++ inp) = sep_with_space p inp := by
  simp [sep_with_space, dropWS_append hw]

theorem parse_array_prepend (pv : Input → ParseResult JsonValue) (f : ℕ)
    {w : Input} (hw : allWS w = true) (inp : Input) :
    parse_array pv f (w ++ inp) = parse_array pv f inp := by
  simp [parse_array, sws_prepend _ hw]

theorem parse_object_prepend (pv : Input → ParseResult JsonValue) (f : ℕ)
    {w : Input} (hw : allWS w = true) (inp : Input) :
    parse_object pv f (w ++ inp) = parse_object pv f inp := by
  simp [parse_object, sws_prepend _ hw]

theorem stopHead_cons (c : Char) (l : Input) :
    stopHead (c :: l) = (isWS c || c == ',' || c == ']' || c == '\x7d') := rfl

theorem stopHead_ws_or {w : Input} (hw : allWS w = true) {c : Char}
    (hc : c = ',' ∨ c = ']' ∨ c = '\x7d') (l : Input) :
    stopHead (w ++ c :: l) = true := by
  cases w with
  | nil => rcases hc with h | h | h <;> subst h <;> rfl
  | cons x xs =>
    have hx : isWS x = true := by
      simp only [allWS, List.all_cons, Bool.and_eq_true] at hw
      exact hw.1
    simp [stopHead_cons, hx]

/-- After any element of a rendered array, the remaining text starts with a
stop character. -/
theorem stopHead_tail_elems (l : List ElemR) (wsC rest2 : Input)
    (hC : allWS wsC = true) (hl : ∀ x ∈ l, allWS x.ws1 = true) :
    stopHead (renderTailElems l ++ (wsC ++ ']' :: rest2)) = true := by
  cases l with
  | nil =>
    simpa [renderTailElems] using stopHead_ws_or hC (by simp) rest2
  | cons x r =>
    have hx : allWS x.ws1 = true := hl x (by simp)
    have := stopHead_ws_or hx (c := ',') (by simp)
      (x.ws2 ++ (x.txt ++ renderTailElems r) ++ (wsC ++ ']' :: rest2))
    simpa [renderTailElems, List.append_assoc] using this

theorem sepTailV_render (pv : Input → ParseResult JsonValue) :
    ∀ (f : ℕ) (l : List ElemR) (wsC rest2 : Input), l.length < f →
      allWS wsC = true →
      (∀ x ∈ l, allWS x.ws1 = true ∧ allWS x.ws2 = true ∧
        headNotWS x.txt = true ∧ ParsesTo pv x.txt x.val) →
      sepTailV pv f (renderTailElems l ++ (wsC ++ ']' :: rest2)) =
        some (l.map ElemR.val, wsC ++ ']' :: rest2) := by
  intro f
  induction f with
  | zero => intro l wsC rest2 hf; omega
  | succ f ih =>
    intro l wsC rest2 hf hC hl
    cases l with
    | nil =>
      have hfail : sep_with_space (charP ',') (wsC ++ ']' :: rest2) = none :=
        sws_fail hC (by decide) (by decide) rest2
      simp [sepTailV, renderTailElems, hfail]
    | cons x r =>
      obtain ⟨hx1, hx2, hxh, hxp⟩ := hl x (by simp)
      have e1 : renderTailElems (x :: r) ++ (wsC ++ ']' :: rest2) =
          x.ws1 ++ ',' ::
            (x.ws2 ++ (x.txt ++ (renderTailElems r ++ (wsC ++ ']' :: rest2)))) := by
        simp [renderTailElems]
      have hcomma := sws_ok hx1 (c := ',') (by decide)
        (x.ws2 ++ (x.txt ++ (renderTailElems r ++ (wsC ++ ']' :: rest2))))
      have e2 : dropWS
          (x.ws2 ++ (x.txt ++ (renderTailElems r ++ (wsC ++ ']' :: rest2)))) =
          x.txt ++ (renderTailElems r ++ (wsC ++ ']' :: rest2)) := by
        rw [dropWS_append hx2]
        cases ht : x.txt with
        | nil => rw [ht] at hxh; exact absurd hxh (by simp [headNotWS])
        | cons c t =>
          have hcw : isWS c = false := by
            rw [ht] at hxh
            simpa [headNotWS] using hxh
          simp [dropWS_cons_neg hcw]
      have hel : pv (x.txt ++ (renderTailElems r ++ (wsC ++ ']' :: rest2))) =
          some (x.val, renderTailElems r ++ (wsC ++ ']' :: rest2)) :=
        hxp _ (stopHead_tail_elems r wsC rest2 hC
          (fun y hy => (hl y (by simp [hy])).1))
      have hrec := ih r wsC rest2 (by simpa using Nat.lt_of_succ_lt_succ hf) hC
        (fun y hy => hl y (by simp [hy]))
      rw [e1]
      simp [sepTailV, hcomma, e2, hel, hrec]

/-- A rendered nonempty array parses to exactly its element values. -/
theorem parse_array_render (pv : Input → ParseResult JsonValue) (f : ℕ)
    (wsA wsB e1 : Input) (v1 : JsonValue) (l : List ElemR) (wsC wsD : Input)
    (hA : allWS wsA = true) (hB : allWS wsB = true) (hC : allWS wsC = true)
    (hD : allWS wsD = true) (hf : l.length < f)
    (h1h : headNotWS e1 = true) (h1p : ParsesTo pv e1 v1)
    (hl : ∀ x ∈ l, allWS x.ws1 = true ∧ allWS x.ws2 = true ∧
      headNotWS x.txt = true ∧ ParsesTo pv x.txt x.val) :
    parse_array pv f (renderArr wsA wsB e1 l wsC wsD) =
      some (v1 :: l.map ElemR.val, []) := by
  have hopen := sws_ok hA (c := '[') (by decide)
    (wsB ++ (e1 ++ (renderTailElems l ++ (wsC ++ ']' :: wsD))))
  have e2 : dropWS (wsB ++ (e1 ++ (renderTailElems l ++ (wsC ++ ']' :: wsD)))) =
      e1 ++ (renderTailElems l ++ (wsC ++ ']' :: wsD)) := by
    rw [dropWS_append hB]
    cases ht : e1 with
    | nil => rw [ht] at h1h; exact absurd h1h (by simp [headNotWS])
    | cons c t =>
      have hcw : isWS c = false := by
        rw [ht] at h1h
        simpa [headNotWS] using h1h
      simp [dropWS_cons_neg hcw]
  have hel : pv (e1 ++ (renderTailElems l ++ (wsC ++ ']' :: wsD))) =
      some (v1, renderTailElems l ++ (wsC ++ ']' :: wsD)) :=
    h1p _ (stopHead_tail_elems l wsC wsD hC (fun y hy => (hl y hy).1))
  have htail := sepTailV_render pv f l wsC wsD hf hC hl
  have hclose := sws_ok hC (c := ']') (by decide) wsD
  rw [renderArr]
  simp [parse_array, hopen, e2, sepValues, hel, htail, hclose,
    dropWS_eq_nil hD]

/-- A rendered empty array parses to the empty list of elements. -/
theorem parse_array_render_empty (fv f : ℕ) (wsA wsB wsD : Input)
    (hA : allWS wsA = true) (hB : allWS wsB = true) (hD : allWS wsD = true) :
    parse_array (parse_value fv) f (wsA ++ '[' :: (wsB ++ ']' :: wsD)) =
      some ([], []) := by
  have hopen := sws_ok hA (c := '[') (by decide) (wsB ++ ']' :: wsD)
  have e2 : dropWS (wsB ++ ']' :: wsD) = ']' :: wsD := by
    rw [dropWS_append hB, dropWS_cons_neg (by decide)]
  have hfailel : parse_value fv (']' :: wsD) = none :=
    parse_value_stopChar (by simp) fv wsD
  have hclose : sep_with_space (charP ']') (']' :: wsD) = some ((), dropWS wsD) := by
    simpa using sws_ok (w := []) (by rfl) (c := ']') (by decide) wsD
  simp [parse_array, hopen, e2, sepValues, hfailel, hclose, dropWS_eq_nil hD]

/-- After any pair of a rendered object, the remaining text starts with a
stop character. -/
theorem stopHead_tail_pairs (l : List TPair) (wsC rest2 : Input)
    (hC : allWS wsC = true) (hl : ∀ t ∈ l, allWS t.ws1 = true) :
    stopHead (renderTailPairs l ++ (wsC ++ '\x7d' :: rest2)) = true := by
  cases l with
  | nil =>
    simpa [renderTailPairs] using stopHead_ws_or hC (by simp) rest2
  | cons t r =>
    have ht : allWS t.ws1 = true := hl t (by simp)
    have := stopHead_ws_or ht (c := ',') (by simp)
      (t.ws2 ++ (renderPair t.pr ++ renderTailPairs r) ++ (wsC ++ '\x7d' :: rest2))
    simpa [renderTailPairs, List.append_assoc] using this

/-- A rendered pair followed by a stop continuation parses to its key and
value, consuming exactly the pair. -/
theorem parse_kv_pair_render (pv : Input → ParseResult JsonValue) (p : PairR)
    (S : Input) (hp : GoodPair pv p) (hS : stopHead S = true) :
    parse_kv_pair pv (renderPair p ++ S) = some ((p.key, p.val), S) := by
  obtain ⟨hq, hwk, hwv, hth, htp⟩ := hp
  have e0 : renderPair p ++ S =
      '"' :: (p.key ++ '"' :: (p.wsK ++ ':' :: (p.wsV ++ (p.txt ++ S)))) := by
    simp [renderPair]
  have hstr : parse_string
      ('"' :: (p.key ++ '"' :: (p.wsK ++ ':' :: (p.wsV ++ (p.txt ++ S))))) =
      some (p.key, p.wsK ++ ':' :: (p.wsV ++ (p.txt ++ S))) := by
    simp [parse_string, charP_self,
      take_until_found hq (p.wsK ++ ':' :: (p.wsV ++ (p.txt ++ S)))]
  have hcolon := sws_ok hwk (c := ':') (by decide) (p.wsV ++ (p.txt ++ S))
  have e2 : dropWS (p.wsV ++ (p.txt ++ S)) = p.txt ++ S := by
    rw [dropWS_append hwv]
    cases ht : p.txt with
    | nil => rw [ht] at hth; exact absurd hth (by simp [headNotWS])
    | cons c t =>
      have hcw : isWS c = false := by
        rw [ht] at hth
        simpa [headNotWS] using hth
      simp [dropWS_cons_neg hcw]
  have hval : pv (p.txt ++ S) = some (p.val, S) := htp S hS
  rw [e0]
  simp [parse_kv_pair, hstr, hcolon, e2, hval]

theorem sepTailKV_render (pv : Input → ParseResult JsonValue) :
    ∀ (f : ℕ) (l : List TPair) (wsC rest2 : Input), l.length < f →
      allWS wsC = true →
      (∀ t ∈ l, allWS t.ws1 = true ∧ allWS t.ws2 = true ∧ GoodPair pv t.pr) →
      sepTailKV pv f (renderTailPairs l ++ (wsC ++ '\x7d' :: rest2)) =
        some (l.map fun t => (t.pr.key, t.pr.val), wsC ++ '\x7d' :: rest2) := by
  intro f
  induction f with
  | zero => intro l wsC rest2 hf; omega
  | succ f ih =>
    intro l wsC rest2 hf hC hl
    cases l with
    | nil =>
      have hfail : sep_with_space (charP ',') (wsC ++ '\x7d' :: rest2) = none :=
        sws_fail hC (by decide) (by decide) rest2
      simp [sepTailKV, renderTailPairs, hfail]
    | cons t r =>
      obtain ⟨ht1, ht2, htp⟩ := hl t (by simp)
      have e1 : renderTailPairs (t :: r) ++ (wsC ++ '\x7d' :: rest2) =
          t.ws1 ++ ',' ::
            (t.ws2 ++ (renderPair t.pr ++
              (renderTailPairs r ++ (wsC ++ '\x7d' :: rest2)))) := by
        simp [renderTailPairs]
      have hcomma := sws_ok ht1 (c := ',') (by decide)
        (t.ws2 ++ (renderPair t.pr ++ (renderTailPairs r ++ (wsC ++ '\x7d' :: rest2))))
      have e2 : dropWS (t.ws2 ++ (renderPair t.pr ++
          (renderTailPairs r ++ (wsC ++ '\x7d' :: rest2)))) =
          renderPair t.pr ++ (renderTailPairs r ++ (wsC ++ '\x7d' :: rest2)) := by
        rw [dropWS_append ht2]
        simp [renderPair, dropWS_cons_neg (by decide : isWS '"' = false)]
      have hpair := parse_kv_pair_render pv t.pr
        (renderTailPairs r ++ (wsC ++ '\x7d' :: rest2)) htp
        (stopHead_tail_pairs r wsC rest2 hC (fun y hy => (hl y (by simp [hy])).1))
      have hrec := ih r wsC rest2 (by simpa using Nat.lt_of_succ_lt_succ hf) hC
        (fun y hy => hl y (by simp [hy]))
      rw [e1]
      simp [sepTailKV, hcomma, e2, hpair, hrec]

/-- A rendered nonempty object parses to the map accumulated from its pairs
in textual order. -/
theorem parse_object_render (pv : Input → ParseResult JsonValue) (f : ℕ)
    (wsA wsB : Input) (p : PairR) (l : List TPair) (wsC wsD : Input)
    (hA : allWS wsA = true) (hB : allWS wsB = true) (hC : allWS wsC = true)
    (hD : allWS wsD = true) (hf : l.length < f) (hp : GoodPair pv p)
    (hl : ∀ t ∈ l, allWS t.ws1 = true ∧ allWS t.ws2 = true ∧ GoodPair pv t.pr) :
    parse_object pv f (renderObject wsA wsB p l wsC wsD) =
      some (buildMap (kvListOf p l), []) := by
  have hopen := sws_ok hA (c := '\x7b') (by decide)
    (wsB ++ (renderPair p ++ (renderTailPairs l ++ (wsC ++ '\x7d' :: wsD))))
  have e2 : dropWS (wsB ++ (renderPair p ++
      (renderTailPairs l ++ (wsC ++ '\x7d' :: wsD)))) =
      renderPair p ++ (renderTailPairs l ++ (wsC ++ '\x7d' :: wsD)) := by
    rw [dropWS_append hB]
    simp [renderPair, dropWS_cons_neg (by decide : isWS '"' = false)]
  have hpair := parse_kv_pair_render pv p
    (renderTailPairs l ++ (wsC ++ '\x7d' :: wsD)) hp
    (stopHead_tail_pairs l wsC wsD hC (fun y hy => (hl y hy).1))
  have htail := sepTailKV_render pv f l wsC wsD hf hC hl
  have hclose := sws_ok hC (c := '\x7d') (by decide) wsD
  rw [renderObject]
  simp [parse_object, hopen, e2, sepPairs, hpair, htail, hclose,
    dropWS_eq_nil hD, buildMap, kvListOf]

/-- An empty object `{}` (with arbitrary whitespace) makes `parse_object`
fail: the first pair's key is required but the next character is `'}'`. -/
theorem parse_object_empty_fails (pv : Input → ParseResult JsonValue) (f : ℕ)
    (wsA wsB rest : Input) (hA : allWS wsA = true) (hB : allWS wsB = true) :
    parse_object pv f (wsA ++ '\x7b' :: (wsB ++ '\x7d' :: rest)) = none := by
  have hopen := sws_ok hA (c := '\x7b') (by decide) (wsB ++ '\x7d' :: rest)
  have e2 : dropWS (wsB ++ '\x7d' :: rest) = '\x7d' :: rest := by
    rw [dropWS_append hB, dropWS_cons_neg (by decide)]
  have hstr : parse_string ('\x7d' :: rest) = none :=
    parse_string_cons_ne (by decide) rest
  simp [parse_object, hopen, e2, sepPairs, parse_kv_pair, hstr]

/-! Lemmas about the `HashMap` model: last write wins, keys unique. -/

theorem lookupKV_insertKV_self (m : List (List Char × JsonValue))
    (k : List Char) (v : JsonValue) :
    lookupKV (insertKV m k v) k = some v := by
  induction m with
  | nil => simp [insertKV, lookupKV]
  | cons kv r ih =>
    obtain ⟨k', v'⟩ := kv
    by_cases h : k' = k
    · simp [insertKV, h, lookupKV]
    · simp [insertKV, h, lookupKV, ih]

theorem lookupKV_insertKV_ne (m : List (List Char × JsonValue))
    {k a : List Char} (h : k ≠ a) (v : JsonValue) :
    lookupKV (insertKV m k v) a = lookupKV m a := by
  induction m with
  | nil => simp [insertKV, lookupKV, h]
  | cons kv r ih =>
    obtain ⟨k', v'⟩ := kv
    by_cases hk : k' = k
    · subst hk
      simp [insertKV, lookupKV, h]
    · simp [insertKV, hk, lookupKV, ih]

theorem keysOf_insertKV (m : List (List Char × JsonValue)) (k : List Char)
    (v : JsonValue) :
    keysOf (insertKV m k v) =
      if k ∈ keysOf m then keysOf m else keysOf m ++ [k] := by
  induction m with
  | nil => simp [insertKV, keysOf]
  | cons kv r ih =>
    obtain ⟨k', v'⟩ := kv
    by_cases hk : k' = k
    · rw [show insertKV ((k', v') :: r) k v = (k, v) :: r from by
        simp [insertKV, hk]]
      have hmem : k ∈ keysOf ((k', v') :: r) := by simp [keysOf, hk.symm]
      rw [if_pos hmem]
      simp [keysOf, hk]
    · rw [show insertKV ((k', v') :: r) k v = (k', v') :: insertKV r k v from by
        simp [insertKV, hk]]
      have hne : k ≠ k' := fun e => hk e.symm
      have hcons : keysOf ((k', v') :: r) = k' :: keysOf r := rfl
      by_cases hr : k ∈ keysOf r
      · rw [show keysOf ((k', v') :: insertKV r k v) =
            k' :: keysOf (insertKV r k v) from rfl, ih, if_pos hr,
          if_pos (by rw [hcons]; exact List.mem_cons_of_mem _ hr)]
        rfl
      · rw [show keysOf ((k', v') :: insertKV r k v) =
            k' :: keysOf (insertKV r k v) from rfl, ih, if_neg hr,
          if_neg (by rw [hcons]; simp [hne, hr])]
        rfl

theorem nodup_keysOf_insertKV (m : List (List Char × JsonValue))
    (k : List Char) (v : JsonValue) (h : (keysOf m).Nodup) :
    (keysOf (insertKV m k v)).Nodup := by
  rw [keysOf_insertKV]
  by_cases hm : k ∈ keysOf m
  · rwa [if_pos hm]
  · rw [if_neg hm]
    simp only [List.nodup_append, List.nodup_cons, List.not_mem_nil,
      not_false_iff, List.nodup_nil, and_true, true_and]
    refine ⟨h, fun a ha hb => ?_⟩
    have hak : a = k := by simpa using hb
    exact hm (hak ▸ ha)

theorem lookupKV_foldl_insert :
    ∀ (l : List (List Char × JsonValue)) (m : List (List Char × JsonValue))
      (k : List Char),
      lookupKV (l.foldl (fun m kv => insertKV m kv.1 kv.2) m) k =
        match lastVal k l with
        | some v => some v
        | none => lookupKV m k := by
  intro l
  induction l with
  | nil => intro m k; simp [lastVal]
  | cons kv r ih =>
    intro m k
    obtain ⟨k', v'⟩ := kv
    rw [List.foldl_cons, ih]
    cases h : lastVal k r with
    | some w => simp [lastVal, h]
    | none =>
      by_cases hk : k' = k
      · subst hk
        simp [lastVal, h, lookupKV_insertKV_self]
      · simp [lastVal, h, hk, lookupKV_insertKV_ne m hk v']

/-- Lookup in the accumulated map returns the value of the last occurrence of
the key in the pair list. -/
theorem lookupKV_buildMap (l : List (List Char × JsonValue)) (k : List Char) :
    lookupKV (buildMap l) k = lastVal k l := by
  rw [buildMap, lookupKV_foldl_insert]
  cases h : lastVal k l <;> simp [lookupKV]

/-- The keys of the accumulated map are pairwise distinct. -/
theorem nodup_keysOf_buildMap (l : List (List Char × JsonValue)) :
    (keysOf (buildMap l)).Nodup := by
  have main : ∀ (l m : List (List Char × JsonValue)), (keysOf m).Nodup →
      (keysOf (l.foldl (fun m kv => insertKV m kv.1 kv.2) m)).Nodup := by
    intro l
    induction l with
    | nil => intro m h; simpa using h
    | cons kv r ih =>
      intro m h
      rw [List.foldl_cons]
      exact ih _ (nodup_keysOf_insertKV m kv.1 kv.2 h)
  exact main l [] (by simp [keysOf])

/-! Lemmas about numeric literals. -/

theorem digitChar_isDigit {n : ℕ} (h : n < 10) :
    (digitChar n).isDigit = true := by
  interval_cases n <;> decide

theorem natReprAux_spec : ∀ (fuel n : ℕ), n < fuel →
    natReprAux fuel n ≠ [] ∧ ∀ c ∈ natReprAux fuel n, c.isDigit = true := by
  intro fuel
  induction fuel with
  | zero => intro n hn; omega
  | succ fuel ih =>
    intro n hn
    by_cases h10 : n < 10
    · refine ⟨by simp [natReprAux, h10], ?_⟩
      intro c hc
      simp only [natReprAux, if_pos h10, List.mem_singleton] at hc
      subst hc
      exact digitChar_isDigit h10
    · have hdivlt : n / 10 < n := Nat.div_lt_self (by omega) (by omega)
      have hdiv : n / 10 < fuel := by omega
      obtain ⟨hne, hall⟩ := ih (n / 10) hdiv
      refine ⟨by simp [natReprAux, h10, hne], ?_⟩
      intro c hc
      simp only [natReprAux, if_neg h10, List.mem_append,
        List.mem_singleton] at hc
      rcases hc with hc | hc
      · exact hall c hc
      · subst hc
        exact digitChar_isDigit (Nat.mod_lt _ (by omega))

theorem natRepr_spec (n : ℕ) :
    natRepr n ≠ [] ∧ ∀ c ∈ natRepr n, c.isDigit = true :=
  natReprAux_spec (n + 1) n (by omega)

theorem optMinus_render (sign : Bool) {c : Char} (hc : c ≠ '-') (t : Input) :
    optMinus ((if sign then ['-'] else []) ++ c :: t) = (sign, c :: t) := by
  cases sign
  · simp [optMinus, hc]
  · simp [optMinus]

theorem parse_to_i64_le {ds : Input} (h : digitsVal ds ≤ maxI64) :
    parse_to_i64 ds = some (digitsVal ds) := by
  simp [parse_to_i64, h]

theorem parseDecimalQ_int (sign : Bool) (ds : Input) (h1 : ds ≠ [])
    (h2 : ∀ c ∈ ds, c.isDigit = true) :
    parseDecimalQ ((if sign then ['-'] else []) ++ ds) =
      some (mkRat
        (if sign then -(digitsVal ds : ℤ) else (digitsVal ds : ℤ)) 1) := by
  obtain ⟨c, t, rfl⟩ : ∃ c t, ds = c :: t := by
    cases ds with
    | nil => exact absurd rfl h1
    | cons c t => exact ⟨c, t, rfl⟩
  have hcd : c.isDigit = true := h2 c (by simp)
  have hcm : c ≠ '-' := by
    intro e; rw [e] at hcd; exact absurd hcd (by decide)
  have htd : takeDigits (c :: t) = (c :: t, []) := by
    have := @takeDigits_exact _ h2 [] rfl
    simpa using this
  simp [parseDecimalQ, optMinus_render sign hcm t, htd]

theorem parseDecimalQ_frac_isSome (ip fp : Input) (hi1 : ip ≠ [])
    (hi2 : ∀ c ∈ ip, c.isDigit = true) (hf1 : fp ≠ [])
    (hf2 : ∀ c ∈ fp, c.isDigit = true) :
    (parseDecimalQ (ip ++ '.' :: fp)).isSome = true := by
  obtain ⟨c, t, rfl⟩ : ∃ c t, ip = c :: t := by
    cases ip with
    | nil => exact absurd rfl hi1
    | cons c t => exact ⟨c, t, rfl⟩
  obtain ⟨c2, t2, rfl⟩ : ∃ c2 t2, fp = c2 :: t2 := by
    cases fp with
    | nil => exact absurd rfl hf1
    | cons c2 t2 => exact ⟨c2, t2, rfl⟩
  have hcd : c.isDigit = true := hi2 c (by simp)
  have hcm : c ≠ '-' := by
    intro e; rw [e] at hcd; exact absurd hcd (by decide)
  have optm : optMinus (c :: (t ++ '.' :: (c2 :: t2))) =
      (false, c :: (t ++ '.' :: (c2 :: t2))) := by
    simp [optMinus, hcm]
  have htd1 : takeDigits (c :: (t ++ '.' :: (c2 :: t2))) =
      (c :: t, '.' :: (c2 :: t2)) := by
    have := @takeDigits_exact _ hi2 ('.' :: (c2 :: t2))
      (by simp [headNotDigit])
    simpa using this
  have htd2 : takeDigits (c2 :: t2) = (c2 :: t2, []) := by
    have := @takeDigits_exact _ hf2 [] rfl
    simpa using this
  simp [parseDecimalQ, optm, htd1, htd2]

/-- The `unwrap` at the end of the `Float` branch of `parse_number` is safe:
the reformatted string `format!("{}.{}", num, frac)` always parses back as a
float, for every pair of parsed integers. -/
theorem mkFloat_isSome (num frac : ℕ) : (mkFloat num frac).isSome = true := by
  obtain ⟨h1, h2⟩ := natRepr_spec num
  obtain ⟨h3, h4⟩ := natRepr_spec frac
  exact parseDecimalQ_frac_isSome (natRepr num) (natRepr frac) h1 h2 h3 h4

/-- `parse_number` on a rendered integer literal (optional sign, digit
string whose value fits in `i64`). -/
theorem parse_number_intLit (sign : Bool) (ds : Input) (h1 : ds ≠ [])
    (h2 : ∀ c ∈ ds, c.isDigit = true) (h3 : digitsVal ds ≤ maxI64) :
    parse_number ((if sign then ['-'] else []) ++ ds) =
      some (.int (if sign then -(digitsVal ds : ℤ) else (digitsVal ds : ℤ)),
        []) := by
  obtain ⟨c, t, rfl⟩ : ∃ c t, ds = c :: t := by
    cases ds with
    | nil => exact absurd rfl h1
    | cons c t => exact ⟨c, t, rfl⟩
  have hcd : c.isDigit = true := h2 c (by simp)
  have hcm : c ≠ '-' := by
    intro e; rw [e] at hcd; exact absurd hcd (by decide)
  have htd : takeDigits (c :: t) = (c :: t, []) := by
    have := @takeDigits_exact _ h2 [] rfl
    simpa using this
  simp [parse_number, optMinus_render sign hcm t, digit1, htd,
    parse_to_i64_le h3]

end Json

namespace Json2

theorem pestNumberSlice_intLit (sign : Bool) (ds : Json.Input)
    (h1 : ds ≠ []) (h2 : ∀ c ∈ ds, c.isDigit = true) :
    pestNumberSlice ((if sign then ['-'] else []) ++ ds) =
      some ((if sign then ['-'] else []) ++ ds, []) := by
  obtain ⟨c, t, rfl⟩ : ∃ c t, ds = c :: t := by
    cases ds with
    | nil => exact absurd rfl h1
    | cons c t => exact ⟨c, t, rfl⟩
  have hcd : c.isDigit = true := h2 c (by simp)
  have hcm : c ≠ '-' := by
    intro e; rw [e] at hcd; exact absurd hcd (by decide)
  have htd : Json.takeDigits (c :: t) = (c :: t, []) := by
    have := @Json.takeDigits_exact _ h2 [] rfl
    simpa using this
  simp [pestNumberSlice, Json.optMinus_render sign hcm t, htd]

/-- The grammar-driven path on a rendered integer literal: a single `Number`
holding the numeric value — the `Int`/`Float` distinction does not exist in
this path's value model. -/
theorem json2_number_intLit (sign : Bool) (ds : Json.Input) (h1 : ds ≠ [])
    (h2 : ∀ c ∈ ds, c.isDigit = true) :
    parse_value_number ((if sign then ['-'] else []) ++ ds) =
      some (.number (mkRat
        (if sign then -(Json.digitsVal ds : ℤ) else (Json.digitsVal ds : ℤ))
        1)) := by
  simp [parse_value_number, pestNumberSlice_intLit sign ds h1 h2,
    Json.parseDecimalQ_int sign ds h1 h2]

end Json2



namespace Json

/-- With nonempty leading whitespace, an input whose first non-whitespace
character opens neither an array nor an object fails to parse: no production
skips whitespace before a primitive. -/
theorem parse_value_ws_primitive {w : Char} {ws' : Input} (hw : isWS w = true)
    (hws : allWS ws' = true) {c : Char} (hcw : isWS c = false)
    (hc1 : c ≠ '[') (hc2 : c ≠ '\x7b') (rest : Input) :
    ∀ f : ℕ, parse_value f ((w :: ws') ++ c :: rest) = none := by
  intro f
  cases f with
  | zero => rfl
  | succ f =>
    obtain ⟨h1, h2, h3, h4, h5, _, _, h8⟩ := isWS_spec hw
    have hall : allWS (w :: ws') = true := by
      simp only [allWS, List.all_cons, Bool.and_eq_true]
      exact ⟨hw, hws⟩
    have harr : parse_array (parse_value f) f (w :: (ws' ++ c :: rest)) = none := by
      have hpre := parse_array_prepend (parse_value f) f hall (c :: rest)
      simp only [List.cons_append] at hpre
      rw [hpre]
      exact parse_array_cons_ne _ _ hcw hc1 rest
    have hobj : parse_object (parse_value f) f (w :: (ws' ++ c :: rest)) = none := by
      have hpre := parse_object_prepend (parse_value f) f hall (c :: rest)
      simp only [List.cons_append] at hpre
      rw [hpre]
      exact parse_object_cons_ne _ _ hcw hc2 rest
    simp only [List.cons_append]
    rw [parse_value_succ]
    simp [parse_null_cons_ne h1, parse_bool_cons_ne h2 h3,
      parse_number_cons_nodigit h4 h8, parse_string_cons_ne h5, harr, hobj]

/-- Leading whitespace before `'['` or `'{'` is transparent: the container
parsers consume it via `sep_with_space`. -/
theorem parse_value_ws_bracket {ws : Input} (hws : allWS ws = true) {b : Char}
    (hb : b = '[' ∨ b = '\x7b') (s' : Input) :
    ∀ f : ℕ, parse_value f (ws ++ b :: s') = parse_value f (b :: s') := by
  intro f
  cases f with
  | zero => rfl
  | succ f =>
    cases ws with
    | nil => rfl
    | cons w ws' =>
      have hw : isWS w = true := by
        simp only [allWS, List.all_cons, Bool.and_eq_true] at hws
        exact hws.1
      have hb1 : b ≠ 'n' ∧ b ≠ 't' ∧ b ≠ 'f' ∧ b ≠ '-' ∧ b ≠ '"' ∧
          b.isDigit = false := by
        rcases hb with h | h <;> subst h <;> exact (by decide)
      obtain ⟨h1, h2, h3, h4, h5, _, _, h8⟩ := isWS_spec hw
      have harr : parse_array (parse_value f) f (w :: (ws' ++ b :: s')) =
          parse_array (parse_value f) f (b :: s') := by
        have hpre := parse_array_prepend (parse_value f) f hws (b :: s')
        simpa only [List.cons_append] using hpre
      have hobj : parse_object (parse_value f) f (w :: (ws' ++ b :: s')) =
          parse_object (parse_value f) f (b :: s') := by
        have hpre := parse_object_prepend (parse_value f) f hws (b :: s')
        simpa only [List.cons_append] using hpre
      simp only [List.cons_append]
      rw [parse_value_succ, parse_value_succ]
      simp [parse_null_cons_ne h1, parse_bool_cons_ne h2 h3,
        parse_number_cons_nodigit h4 h8, parse_string_cons_ne h5,
        parse_null_cons_ne hb1.1, parse_bool_cons_ne hb1.2.1 hb1.2.2.1,
        parse_number_cons_nodigit hb1.2.2.2.1 hb1.2.2.2.2.2,
        parse_string_cons_ne hb1.2.2.2.2.1, harr, hobj]

end Json

/-- Claim C3: for every input, the Value Dispatcher `parse_value` tries the
productions in exactly the fixed order null, bool, number, string, array,
object, each attempt starting from the same cursor position (a failing
attempt leaves no cursor advancement for the next alternative to observe),
returns the result of the first production that succeeds, and fails exactly
when all six fail. -/
theorem c3_value_dispatcher (f : ℕ) (inp : Json.Input) :
    (Json.parse_value (f + 1) inp = none ↔
      Json.parse_null inp = none ∧ Json.parse_bool inp = none ∧
      Json.parse_number inp = none ∧ Json.parse_string inp = none ∧
      Json.parse_array (Json.parse_value f) f inp = none ∧
      Json.parse_object (Json.parse_value f) f inp = none) ∧
    (∀ r : Unit × Json.Input, Json.parse_null inp = some r →
      Json.parse_value (f + 1) inp = some (.null, r.2)) ∧
    (Json.parse_null inp = none →
      ∀ (b : Bool) (r : Json.Input), Json.parse_bool inp = some (b, r) →
      Json.parse_value (f + 1) inp = some (.bool b, r)) ∧
    (Json.parse_null inp = none → Json.parse_bool inp = none →
      ∀ (n : Json.Num) (r : Json.Input), Json.parse_number inp = some (n, r) →
      Json.parse_value (f + 1) inp = some (.number n, r)) ∧
    (Json.parse_null inp = none → Json.parse_bool inp = none →
      Json.parse_number inp = none →
      ∀ (s r : Json.Input), Json.parse_string inp = some (s, r) →
      Json.parse_value (f + 1) inp = some (.string s, r)) ∧
    (Json.parse_null inp = none → Json.parse_bool inp = none →
      Json.parse_number inp = none → Json.parse_string inp = none →
      ∀ (vs : List Json.JsonValue) (r : Json.Input),
        Json.parse_array (Json.parse_value f) f inp = some (vs, r) →
      Json.parse_value (f + 1) inp = some (.array vs, r)) ∧
    (Json.parse_null inp = none → Json.parse_bool inp = none →
      Json.parse_number inp = none → Json.parse_string inp = none →
      Json.parse_array (Json.parse_value f) f inp = none →
      ∀ (m : List (List Char × Json.JsonValue)) (r : Json.Input),
        Json.parse_object (Json.parse_value f) f inp = some (m, r) →
      Json.parse_value (f + 1) inp = some (.object m, r)) := by
  refine ⟨⟨?_, ?_⟩, ?_, ?_, ?_, ?_, ?_, ?_⟩
  · intro h
    cases h0 : Json.parse_null inp with
    | some r =>
      obtain ⟨u, rr⟩ := r
      rw [Json.parse_value_succ] at h
      simp [h0] at h
    | none =>
    cases h1 : Json.parse_bool inp with
    | some r =>
      obtain ⟨b, rr⟩ := r
      rw [Json.parse_value_succ] at h
      simp [h0, h1] at h
    | none =>
    cases h2 : Json.parse_number inp with
    | some r =>
      obtain ⟨n, rr⟩ := r
      rw [Json.parse_value_succ] at h
      simp [h0, h1, h2] at h
    | none =>
    cases h3 : Json.parse_string inp with
    | some r =>
      obtain ⟨s, rr⟩ := r
      rw [Json.parse_value_succ] at h
      simp [h0, h1, h2, h3] at h
    | none =>
    cases h4 : Json.parse_array (Json.parse_value f) f inp with
    | some r =>
      obtain ⟨vs, rr⟩ := r
      rw [Json.parse_value_succ] at h
      simp [h0, h1, h2, h3, h4] at h
    | none =>
    cases h5 : Json.parse_object (Json.parse_value f) f inp with
    | some r =>
      obtain ⟨m, rr⟩ := r
      rw [Json.parse_value_succ] at h
      simp [h0, h1, h2, h3, h4, h5] at h
    | none => exact ⟨rfl, rfl, rfl, rfl, rfl, rfl⟩
  · rintro ⟨h0, h1, h2, h3, h4, h5⟩
    rw [Json.parse_value_succ]
    simp [h0, h1, h2, h3, h4, h5]
  · rintro ⟨u, rr⟩ h0
    rw [Json.parse_value_succ]
    simp [h0]
  · intro h0 b rr h1
    rw [Json.parse_value_succ]
    simp [h0, h1]
  · intro h0 h1 n rr h2
    rw [Json.parse_value_succ]
    simp [h0, h1, h2]
  · intro h0 h1 h2 s rr h3
    rw [Json.parse_value_succ]
    simp [h0, h1, h2, h3]
  · intro h0 h1 h2 h3 vs rr h4
    rw [Json.parse_value_succ]
    simp [h0, h1, h2, h3, h4]
  · intro h0 h1 h2 h3 h4 m rr h5
    rw [Json.parse_value_succ]
    simp [h0, h1, h2, h3, h4, h5]

/-- Witness for C3 at a concrete input: on `"true"` the null production
fails, the bool production succeeds, and the dispatcher returns its result. -/
theorem c3_value_dispatcher_witness :
    Json.parse_value 1 (toInput "true") = some (.bool true, []) :=
  (c3_value_dispatcher 0 (toInput "true")).2.2.1 rfl true [] rfl

/-- Claim C7: `parse_string` succeeds exactly on inputs of the shape
`'"' :: s ++ '"' :: rest` with no `'"'` inside `s`, returning the (possibly
empty) characters strictly between the opening quote and the first following
quote with no escape processing (a backslash is an ordinary character); with
no closing quote before input end it fails (no other shape succeeds). -/
theorem c7_parse_string_spec :
    (∀ (s rest : Json.Input), '"' ∉ s →
      Json.parse_string ('"' :: (s ++ '"' :: rest)) = some (s, rest)) ∧
    (∀ (inp s rest : Json.Input), Json.parse_string inp = some (s, rest) →
      inp = '"' :: (s ++ '"' :: rest) ∧ '"' ∉ s) := by
  constructor
  · intro s rest hq
    simp [Json.parse_string, Json.charP_self, Json.take_until_found hq rest]
  · intro inp s rest h
    cases inp with
    | nil => simp [Json.parse_string, Json.charP] at h
    | cons x xs =>
      by_cases hx : x = '"'
      · subst hx
        cases htu : Json.take_until_ch '"' xs with
        | none =>
          simp [Json.parse_string, Json.charP_self, htu] at h
        | some p =>
          obtain ⟨s', r'⟩ := p
          obtain ⟨he, hq, r'', hr⟩ := Json.take_until_sound htu
          subst hr
          simp only [Json.parse_string, Json.charP_self, htu,
            Json.charP_self, Option.some.injEq, Prod.mk.injEq] at h
          obtain ⟨hs, hrr⟩ := h
          subst hs; subst hrr; subst he
          exact ⟨rfl, hq⟩
      · simp [Json.parse_string, Json.charP_ne hx] at h

/-- Witness for C7: a backslash is an ordinary character, so `\"` inside a
string terminates it at the quote ("a\" parses to the two characters a, \). -/
theorem c7_parse_string_spec_witness :
    Json.parse_string (toInput "\"a\\\"tail") = some (['a', '\\'], toInput "tail") :=
  c7_parse_string_spec.1 ['a', '\\'] (toInput "tail") (by decide)

/-- Claim C1 (failing evaluation): `parse_number` on the literal `"1.05"`.
The fractional digits `"05"` are parsed to the integer `5` and reformatted by
`format!("{}.{}", num, frac)`, dropping the leading zero, so the code returns
`Float(1.5)` — not the mathematical value 21/20 of the literal. -/
theorem c1_leading_zero_fraction_bug :
    Json.parse_number (toInput "1.05") = some (.float (mkRat 3 2), []) ∧
    mkRat 3 2 ≠ mkRat 21 20 :=
  ⟨rfl, by decide⟩

/-- Claim C2 (counterexample): the two paths do not produce indistinguishable
value trees.  The hand-rolled path distinguishes `"30"` (variant `Int`) from
`"30.0"` (variant `Float`), while the grammar-driven path — whose `Number`
holds a single `f64` — produces the identical tree for both, so in particular
it cannot make the hand-rolled path's `Int`-versus-`Float` distinction for
the literal `"30"`. -/
theorem c2_trees_not_indistinguishable :
    Json.parse_json 2 (toInput "30") = some (.number (.int 30)) ∧
    Json.parse_json 2 (toInput "30.0") = some (.number (.float (mkRat 30 1))) ∧
    Json.Num.int 30 ≠ Json.Num.float (mkRat 30 1) ∧
    Json2.parse_value_number (toInput "30") =
      Json2.parse_value_number (toInput "30.0") :=
  ⟨rfl, rfl, by decide, rfl⟩

/-- Claim C2 (amended): on every integer literal (optional sign, digits)
whose value is below 2^53 — hence exactly representable in both an `i64` and
an `f64` — the two paths agree on the numeric value, the hand-rolled path
producing the `Int` variant and the grammar path collapsing it into its
single float-valued `Number`. -/
theorem c2_number_collapse (sign : Bool) (ds : Json.Input) (h1 : ds ≠ [])
    (h2 : ∀ c ∈ ds, c.isDigit = true)
    (h53 : Json.digitsVal ds < 2 ^ 53) :
    Json.parse_number ((if sign then ['-'] else []) ++ ds) =
      some (.int (if sign then -(Json.digitsVal ds : ℤ)
        else (Json.digitsVal ds : ℤ)), []) ∧
    Json2.parse_value_number ((if sign then ['-'] else []) ++ ds) =
      some (.number (mkRat (if sign then -(Json.digitsVal ds : ℤ)
        else (Json.digitsVal ds : ℤ)) 1)) := by
  have hle : Json.digitsVal ds ≤ Json.maxI64 := by
    have hp : (2 : ℕ) ^ 53 ≤ Json.maxI64 := by decide
    omega
  exact ⟨Json.parse_number_intLit sign ds h1 h2 hle,
    Json2.json2_number_intLit sign ds h1 h2⟩

/-- Witness for the amended C2 at the literal `"30"`. -/
theorem c2_number_collapse_witness :
    Json.parse_number (toInput "30") = some (.int 30, []) ∧
    Json2.parse_value_number (toInput "30") = some (.number (mkRat 30 1)) := by
  have h := c2_number_collapse false (toInput "30") (by decide) (by decide)
    (by decide)
  exact ⟨h.1, h.2⟩

/-- Claim C4: `parse_object` requires at least one key/value pair between
`{` and `}`: the input `{}` (with arbitrary surrounding and interior
whitespace, and anything after the `}`) fails, while every rendered object
with one-or-more well-formed pairs succeeds. -/
theorem c4_object_requires_pair :
    (∀ (pv : Json.Input → Json.ParseResult Json.JsonValue) (f : ℕ)
      (wsA wsB rest : Json.Input),
      Json.allWS wsA = true → Json.allWS wsB = true →
      Json.parse_object pv f (wsA ++ '\x7b' :: (wsB ++ '\x7d' :: rest)) =
        none) ∧
    (∀ (fv f : ℕ) (wsA wsB wsC wsD : Json.Input) (p : Json.PairR)
      (l : List Json.TPair),
      Json.allWS wsA = true → Json.allWS wsB = true →
      Json.allWS wsC = true → Json.allWS wsD = true → l.length < f →
      Json.GoodPair (Json.parse_value fv) p →
      (∀ t ∈ l, Json.allWS t.ws1 = true ∧ Json.allWS t.ws2 = true ∧
        Json.GoodPair (Json.parse_value fv) t.pr) →
      ∃ m, Json.parse_object (Json.parse_value fv) f
        (Json.renderObject wsA wsB p l wsC wsD) = some (m, [])) := by
  constructor
  · intro pv f wsA wsB rest hA hB
    exact Json.parse_object_empty_fails pv f wsA wsB rest hA hB
  · intro fv f wsA wsB wsC wsD p l hA hB hC hD hf hp hl
    exact ⟨_, Json.parse_object_render _ f wsA wsB p l wsC wsD hA hB hC hD
      hf hp hl⟩

/-- Witness for C4: `{ }` fails, `{"a":null}` succeeds. -/
theorem c4_object_requires_pair_witness :
    Json.parse_object (Json.parse_value 1) 1 (toInput "\x7b \x7d") = none ∧
    ∃ m, Json.parse_object (Json.parse_value 1) 1
      (toInput "\x7b\"a\":null\x7d") = some (m, []) := by
  constructor
  · exact c4_object_requires_pair.1 (Json.parse_value 1) 1 [] [' '] [] rfl rfl
  · exact c4_object_requires_pair.2 1 1 [] [] [] []
      ⟨['a'], [], [], Json.nullLit, Json.JsonValue.null⟩ []
      rfl rfl rfl rfl (by decide)
      ⟨by decide, rfl, rfl, by decide,
        fun rest _ => Json.parse_value_null_kw 0 rest⟩
      (by intro t ht; simp at ht)

/-- Claim C5: for every well-formed array with `n ≥ 0` elements and arbitrary
whitespace around the brackets and comma separators, `parse_array` succeeds
and yields exactly the parses of the element texts in order; the empty array
`[]` succeeds with zero elements. -/
theorem c5_array_roundtrip :
    (∀ (fv f : ℕ) (wsA wsB wsD : Json.Input),
      Json.allWS wsA = true → Json.allWS wsB = true → Json.allWS wsD = true →
      Json.parse_array (Json.parse_value fv) f
        (wsA ++ '[' :: (wsB ++ ']' :: wsD)) = some ([], [])) ∧
    (∀ (fv f : ℕ) (wsA wsB e1 : Json.Input) (v1 : Json.JsonValue)
      (l : List Json.ElemR) (wsC wsD : Json.Input),
      Json.allWS wsA = true → Json.allWS wsB = true →
      Json.allWS wsC = true → Json.allWS wsD = true → l.length < f →
      Json.headNotWS e1 = true →
      Json.ParsesTo (Json.parse_value fv) e1 v1 →
      (∀ x ∈ l, Json.allWS x.ws1 = true ∧ Json.allWS x.ws2 = true ∧
        Json.headNotWS x.txt = true ∧
        Json.ParsesTo (Json.parse_value fv) x.txt x.val) →
      Json.parse_array (Json.parse_value fv) f
        (Json.renderArr wsA wsB e1 l wsC wsD) =
        some (v1 :: l.map Json.ElemR.val, [])) := by
  constructor
  · intro fv f wsA wsB wsD hA hB hD
    exact Json.parse_array_render_empty fv f wsA wsB wsD hA hB hD
  · intro fv f wsA wsB e1 v1 l wsC wsD hA hB hC hD hf h1h h1p hl
    exact Json.parse_array_render _ f wsA wsB e1 v1 l wsC wsD hA hB hC hD hf
      h1h h1p hl

/-- Witness for C5: `[null, null]` parses to the two-element array. -/
theorem c5_array_roundtrip_witness :
    Json.parse_array (Json.parse_value 1) 2 (toInput "[null, null]") =
      some ([Json.JsonValue.null, Json.JsonValue.null], []) := by
  have h := c5_array_roundtrip.2 1 2 [] [] Json.nullLit Json.JsonValue.null
    [⟨[], [' '], Json.nullLit, Json.JsonValue.null⟩] [] []
    rfl rfl rfl rfl (by decide) (by decide)
    (fun rest _ => Json.parse_value_null_kw 0 rest)
    (by
      intro x hx
      simp at hx
      subst hx
      exact ⟨rfl, rfl, by decide,
        fun rest _ => Json.parse_value_null_kw 0 rest⟩)
  exact h

/-- Claim C6: for every well-formed rendered object, the resulting map sends
each key to the value of its last (rightmost) occurrence in the pair list,
and contains each key at most once (so objects with distinct keys map each
key to its own parsed value, and a repeated key's final value wins). -/
theorem c6_object_last_write_wins (fv f : ℕ) (wsA wsB wsC wsD : Json.Input)
    (p : Json.PairR) (l : List Json.TPair)
    (hA : Json.allWS wsA = true) (hB : Json.allWS wsB = true)
    (hC : Json.allWS wsC = true) (hD : Json.allWS wsD = true)
    (hf : l.length < f) (hp : Json.GoodPair (Json.parse_value fv) p)
    (hl : ∀ t ∈ l, Json.allWS t.ws1 = true ∧ Json.allWS t.ws2 = true ∧
      Json.GoodPair (Json.parse_value fv) t.pr) :
    ∃ m, Json.parse_object (Json.parse_value fv) f
        (Json.renderObject wsA wsB p l wsC wsD) = some (m, []) ∧
      (∀ k, Json.lookupKV m k = Json.lastVal k (Json.kvListOf p l)) ∧
      (Json.keysOf m).Nodup :=
  ⟨Json.buildMap (Json.kvListOf p l),
    Json.parse_object_render _ f wsA wsB p l wsC wsD hA hB hC hD hf hp hl,
    fun k => Json.lookupKV_buildMap _ k,
    Json.nodup_keysOf_buildMap _⟩

/-- Witness for C6: in `{"a":null,"a":true}` the key `a` maps to the last
value `true` and the keys of the result are pairwise distinct. -/
theorem c6_object_last_write_wins_witness :
    ∃ m, Json.parse_object (Json.parse_value 1) 2
        (toInput "\x7b\"a\":null,\"a\":true\x7d") = some (m, []) ∧
      Json.lookupKV m ['a'] = some (Json.JsonValue.bool true) ∧
      (Json.keysOf m).Nodup := by
  obtain ⟨m, hm, hlook, hnd⟩ := c6_object_last_write_wins 1 2 [] [] [] []
    ⟨['a'], [], [], Json.nullLit, Json.JsonValue.null⟩
    [⟨[], [], ⟨['a'], [], [], Json.trueLit, Json.JsonValue.bool true⟩⟩]
    rfl rfl rfl rfl (by decide)
    ⟨by decide, rfl, rfl, by decide,
      fun rest _ => Json.parse_value_null_kw 0 rest⟩
    (by
      intro t ht
      simp at ht
      subst ht
      exact ⟨rfl, rfl, by decide, rfl, rfl, by decide,
        fun rest _ => Json.parse_value_true_kw 0 rest⟩)
  refine ⟨m, hm, ?_, hnd⟩
  rw [hlook ['a']]
  rfl

/-- Claim C8: `parse_json` is total — malformed input yields a failure, never
a panic and never a partial tree (the embedding returns `Option JsonValue`
and every branch is defined).  The two panic/overflow sites are settled
explicitly: the `f64` conversion `unwrap` inside `parse_number` is
unreachable — for every pair of parsed integers the reformatted string parses
back as a float — and digits that overflow the 64-bit integer conversion make
the parse fail rather than panic. -/
theorem c8_unwrap_unreachable :
    (∀ num frac : ℕ, (Json.mkFloat num frac).isSome = true) ∧
    Json.parse_number (toInput "99999999999999999999") = none ∧
    Json.parse_json 1 (toInput "\x7binvalid\x7d") = none :=
  ⟨Json.mkFloat_isSome, by decide, rfl⟩

/-- Claim C9: `parse_json` does not require the whole input to be consumed —
whenever a prefix parses as a complete value, `parse_json` succeeds with that
value and silently ignores the trailing content. -/
theorem c9_trailing_ignored (f : ℕ) (inp : Json.Input) (v : Json.JsonValue)
    (rest : Json.Input) (h : Json.parse_value f inp = some (v, rest)) :
    Json.parse_json f inp = some v := by
  simp [Json.parse_json, h]

/-- Witness for C9: `"null garbage"` parses to `Null`, the trailing
`" garbage"` ignored. -/
theorem c9_trailing_ignored_witness :
    Json.parse_json 1 (toInput "null garbage") = some Json.JsonValue.null :=
  c9_trailing_ignored 1 (toInput "null garbage") Json.JsonValue.null
    (toInput " garbage") rfl

/-- Claim C10: whitespace is skipped only inside container delimiters.  With
nonempty leading whitespace, an input whose first non-whitespace character is
not `'['` or `'{'` (in particular any primitive literal) makes `parse_json`
fail, whereas the same leading whitespace before `'['` or `'{'` is consumed
by the container parsers' `sep_with_space` wrapper and parsing proceeds as
without it. -/
theorem c10_ws_only_containers :
    (∀ (f : ℕ) (w : Char) (ws' : Json.Input) (c : Char) (rest : Json.Input),
      Json.isWS w = true → Json.allWS ws' = true → Json.isWS c = false →
      c ≠ '[' → c ≠ '\x7b' →
      Json.parse_json f ((w :: ws') ++ c :: rest) = none) ∧
    (∀ (f : ℕ) (ws : Json.Input) (b : Char) (s' : Json.Input),
      Json.allWS ws = true → (b = '[' ∨ b = '\x7b') →
      Json.parse_value f (ws ++ b :: s') = Json.parse_value f (b :: s')) := by
  constructor
  · intro f w ws' c rest hw hws hcw hc1 hc2
    have h := Json.parse_value_ws_primitive hw hws hcw hc1 hc2 rest f
    simp only [List.cons_append] at h
    simp [Json.parse_json, h]
  · intro f ws b s' hws hb
    exact Json.parse_value_ws_bracket hws hb s' f

/-- Witness for C10: `" null"` fails at top level while `" []"` parses
exactly as `"[]"`, i.e. to the empty array. -/
theorem c10_ws_only_containers_witness :
    Json.parse_json 1 (toInput " null") = none ∧
    Json.parse_value 3 (toInput " []") =
      some (Json.JsonValue.array [], []) := by
  constructor
  · exact c10_ws_only_containers.1 1 ' ' [] 'n' (toInput "ull") rfl rfl
      (by decide) (by decide) (by decide)
  · have h := c10_ws_only_containers.2 3 [' '] '[' [']'] rfl (Or.inl rfl)
    exact h.trans rfl
